import Mathlib

/-!
Verification development for `infi.recipe.js_requirements`
(source file `src/infi/recipe/js_requirements/__init__.py`).

The development shallowly embeds:

* the semantic-version values and constraint specifications used by the
  recipe through the `semantic_version` library (`Version`, `Spec`):
  versions are `major.minor.patch` triples with optional pre-release
  identifiers and build metadata, ordered by semantic-version precedence
  (numeric fields numerically, pre-release below release, pre-release
  identifiers compared field by field, build metadata ignored);
* the constraint bookkeeping of `JSDep._add_spec` / `JSDep._get_spec`
  and the version selection `Spec.select` used in
  `JSDep._resolve_dependencies` (filter the available versions by every
  accumulated constraint, then take the maximum);
* the breadth-first resolution loop of `JSDep._resolve_dependencies`,
  instrumented with the dequeue order and the sequence of
  `resolved[name] = version` assignments, and made total with a fuel
  parameter (the Python loop does not terminate on cyclic dependency
  graphs, which the fuel models as `none`);
* SHA-1 and the checksum validation of `JSDep._validate_hash`;
* the filesystem effects of `JSDep._download_package` (extraction of the
  archive's `package` folder into the output directory followed by
  `os.rename`), over a small set-of-paths filesystem model where
  `os.rename` fails on a non-empty destination directory, as the OS call
  does;
* the run orchestration of `JSDep._setup` (resolve, write the lock
  record, download every resolved package) as an event trace;
* the memoization of `JSDep._get_metadata` provided by the
  `infi.pyutils` `lazy.cached_method` decorator, modelled from the spec
  as a cache keyed by the argument tuple.

The recipe targets Python 2 (`six`, binary-mode `json.dump`); sequence
semantics such as `reversed(map(...))` in the error path of
`_resolve_dependencies` are embedded with their Python 2 meaning.
-/

/-! ## Three-way comparisons

`semantic_version` orders versions through rich comparisons; we embed the
order as a three-way comparison function and prove once that it is a
lawful (total, transitive) comparison, which the maximum-selection lemmas
below need.
-/

/-- A lawful three-way comparison: antisymmetric under `swap`, with
transitive strict order and substitutive equivalence. -/
structure LawCmp {α : Type} (c : α → α → Ordering) : Prop where
  symm : ∀ a b, c a b = (c b a).swap
  lt_trans : ∀ a b d, c a b = .lt → c b d = .lt → c a d = .lt
  eq_left : ∀ a b d, c a b = .eq → c a d = c b d

theorem lawCmp_self {α : Type} {c : α → α → Ordering} (L : LawCmp c) (a : α) :
    c a a = .eq := by
  have h := L.symm a a
  cases hc : c a a
  · rw [hc] at h; exact absurd h (by decide)
  · rfl
  · rw [hc] at h; exact absurd h (by decide)

theorem lawCmp_eq_right {α : Type} {c : α → α → Ordering} (L : LawCmp c) {a b : α}
    (h : c a b = .eq) (d : α) : c d a = c d b := by
  rw [L.symm d a, L.symm d b, L.eq_left a b d h]

theorem lawCmp_le_trans {α : Type} {c : α → α → Ordering} (L : LawCmp c) {a b d : α}
    (h1 : c a b ≠ .gt) (h2 : c b d ≠ .gt) : c a d ≠ .gt := by
  cases hab : c a b with
  | lt =>
    cases hbd : c b d with
    | lt => rw [L.lt_trans a b d hab hbd]; simp
    | eq => rw [← lawCmp_eq_right L hbd a, hab]; simp
    | gt => exact absurd hbd h2
  | eq => rw [L.eq_left a b d hab]; exact h2
  | gt => exact absurd hab h1

/-- Sequential composition of comparisons (compare by the first, break
ties by the second). -/
def thenCmp {α : Type} (c1 c2 : α → α → Ordering) (a b : α) : Ordering :=
  (c1 a b).then (c2 a b)

theorem then_swap (o1 o2 : Ordering) : (o1.then o2).swap = o1.swap.then o2.swap := by
  cases o1 <;> rfl

theorem thenCmp_law {α : Type} {c1 c2 : α → α → Ordering}
    (L1 : LawCmp c1) (L2 : LawCmp c2) : LawCmp (thenCmp c1 c2) := by
  constructor
  · intro a b
    unfold thenCmp
    rw [L1.symm a b, L2.symm a b, then_swap]
  · intro a b d h1 h2
    unfold thenCmp at h1 h2 ⊢
    cases hab : c1 a b with
    | lt =>
      cases hbd : c1 b d with
      | lt => rw [L1.lt_trans a b d hab hbd]; rfl
      | eq => rw [← lawCmp_eq_right L1 hbd a, hab]; rfl
      | gt => rw [hbd] at h2; simp [Ordering.then] at h2
    | eq =>
      rw [hab] at h1
      simp only [Ordering.then] at h1
      cases hbd : c1 b d with
      | lt => rw [L1.eq_left a b d hab, hbd]; rfl
      | eq =>
        rw [hbd] at h2
        simp only [Ordering.then] at h2
        rw [L1.eq_left a b d hab, hbd]
        simpa only [Ordering.then] using L2.lt_trans a b d h1 h2
      | gt => rw [hbd] at h2; simp [Ordering.then] at h2
    | gt => rw [hab] at h1; simp [Ordering.then] at h1
  · intro a b d h
    unfold thenCmp at h ⊢
    cases hab : c1 a b with
    | lt => rw [hab] at h; simp [Ordering.then] at h
    | eq =>
      rw [hab] at h
      simp only [Ordering.then] at h
      rw [L1.eq_left a b d hab, L2.eq_left a b d h]
    | gt => rw [hab] at h; simp [Ordering.then] at h

theorem lawCmp_comap {α β : Type} {c : β → β → Ordering} (L : LawCmp c) (f : α → β) :
    LawCmp (fun a b => c (f a) (f b)) := by
  constructor
  · intro a b; exact L.symm (f a) (f b)
  · intro a b d h1 h2; exact L.lt_trans (f a) (f b) (f d) h1 h2
  · intro a b d h; exact L.eq_left (f a) (f b) (f d) h

def natCmp (a b : Nat) : Ordering :=
  if a < b then .lt else if a = b then .eq else .gt

theorem natCmp_lt_iff {a b : Nat} : natCmp a b = .lt ↔ a < b := by
  unfold natCmp
  split_ifs with h1 h2
  · simp [h1]
  · simp only [reduceCtorEq, false_iff]; omega
  · simp only [reduceCtorEq, false_iff]; omega

theorem natCmp_eq_iff {a b : Nat} : natCmp a b = .eq ↔ a = b := by
  unfold natCmp
  split_ifs with h1 h2
  · simp only [reduceCtorEq, false_iff]; omega
  · simp [h2]
  · simp only [reduceCtorEq, false_iff]; omega

theorem natCmp_gt_iff {a b : Nat} : natCmp a b = .gt ↔ b < a := by
  unfold natCmp
  split_ifs with h1 h2
  · simp only [reduceCtorEq, false_iff]; omega
  · simp only [reduceCtorEq, false_iff]; omega
  · simp only [true_iff]; omega

theorem natCmp_law : LawCmp natCmp := by
  constructor
  · intro a b
    rcases Nat.lt_trichotomy a b with h | h | h
    · rw [natCmp_lt_iff.mpr h, natCmp_gt_iff.mpr h]; rfl
    · rw [natCmp_eq_iff.mpr h, natCmp_eq_iff.mpr h.symm]; rfl
    · rw [natCmp_gt_iff.mpr h, natCmp_lt_iff.mpr h]; rfl
  · intro a b d h1 h2
    rw [natCmp_lt_iff] at h1 h2 ⊢
    omega
  · intro a b d h
    rw [natCmp_eq_iff] at h
    subst h
    rfl

/-- Lexicographic comparison of lists; a strict prefix compares below. -/
def listCmp {α : Type} (c : α → α → Ordering) : List α → List α → Ordering
  | [], [] => .eq
  | [], _ :: _ => .lt
  | _ :: _, [] => .gt
  | x :: xs, y :: ys => (c x y).then (listCmp c xs ys)

theorem listCmp_symm {α : Type} {c : α → α → Ordering} (L : LawCmp c) :
    ∀ a b : List α, listCmp c a b = (listCmp c b a).swap := by
  intro a
  induction a with
  | nil => intro b; cases b <;> rfl
  | cons x xs ih =>
    intro b
    cases b with
    | nil => rfl
    | cons y ys =>
      show (c x y).then (listCmp c xs ys) = ((c y x).then (listCmp c ys xs)).swap
      rw [then_swap, ← L.symm x y, ← ih ys]

theorem listCmp_lt_trans {α : Type} {c : α → α → Ordering} (L : LawCmp c) :
    ∀ a b d : List α, listCmp c a b = .lt → listCmp c b d = .lt →
      listCmp c a d = .lt := by
  intro a
  induction a with
  | nil =>
    intro b d h1 h2
    cases b with
    | nil => exact absurd h1 (by simp [listCmp])
    | cons y ys =>
      cases d with
      | nil => exact absurd h2 (by simp [listCmp])
      | cons z zs => rfl
  | cons x xs ih =>
    intro b d h1 h2
    cases b with
    | nil => exact absurd h1 (by simp [listCmp])
    | cons y ys =>
      cases d with
      | nil => exact absurd h2 (by simp [listCmp])
      | cons z zs =>
        show (c x z).then (listCmp c xs zs) = .lt
        have h1 : (c x y).then (listCmp c xs ys) = .lt := h1
        have h2 : (c y z).then (listCmp c ys zs) = .lt := h2
        cases hxy : c x y with
        | lt =>
          cases hyz : c y z with
          | lt => rw [L.lt_trans x y z hxy hyz]; rfl
          | eq => rw [← lawCmp_eq_right L hyz x, hxy]; rfl
          | gt => rw [hyz] at h2; simp [Ordering.then] at h2
        | eq =>
          rw [hxy] at h1
          simp only [Ordering.then] at h1
          cases hyz : c y z with
          | lt => rw [L.eq_left x y z hxy, hyz]; rfl
          | eq =>
            rw [hyz] at h2
            simp only [Ordering.then] at h2
            rw [L.eq_left x y z hxy, hyz]
            simpa only [Ordering.then] using ih ys zs h1 h2
          | gt => rw [hyz] at h2; simp [Ordering.then] at h2
        | gt => rw [hxy] at h1; simp [Ordering.then] at h1

theorem listCmp_eq_left {α : Type} {c : α → α → Ordering} (L : LawCmp c) :
    ∀ a b d : List α, listCmp c a b = .eq → listCmp c a d = listCmp c b d := by
  intro a
  induction a with
  | nil =>
    intro b d h
    cases b with
    | nil => rfl
    | cons y ys => exact absurd h (by simp [listCmp])
  | cons x xs ih =>
    intro b d h
    cases b with
    | nil => exact absurd h (by simp [listCmp])
    | cons y ys =>
      have h : (c x y).then (listCmp c xs ys) = .eq := h
      cases hxy : c x y with
      | lt => rw [hxy] at h; simp [Ordering.then] at h
      | eq =>
        rw [hxy] at h
        simp only [Ordering.then] at h
        cases d with
        | nil => rfl
        | cons z zs =>
          show (c x z).then (listCmp c xs zs) = (c y z).then (listCmp c ys zs)
          rw [L.eq_left x y z hxy, ih ys zs h]
      | gt => rw [hxy] at h; simp [Ordering.then] at h

theorem listCmp_law {α : Type} {c : α → α → Ordering} (L : LawCmp c) :
    LawCmp (listCmp c) :=
  ⟨listCmp_symm L, listCmp_lt_trans L, listCmp_eq_left L⟩

/-! ## Semantic versions

`semantic_version.Version` as used by the recipe: `major.minor.patch`
with optional pre-release identifiers and build metadata.  Precedence
follows SemVer 2.0.0 (which §3 of the spec also states): numeric fields
compare numerically, a pre-release sorts below the corresponding
release, pre-release identifiers compare field by field (numeric
identifiers numerically and below alphanumeric ones, alphanumeric ones
by code points, a strict prefix below the longer list), and build
metadata does not participate in precedence.
-/

/-- One pre-release identifier: numeric or alphanumeric. -/
inductive PreId where
  | num (n : Nat)
  | str (s : String)
deriving DecidableEq, Repr

structure Version where
  major : Nat
  minor : Nat
  patch : Nat
  prerelease : List PreId
  build : List String
deriving DecidableEq, Repr

/-- Release version `a.b.c` with no pre-release or build part. -/
def relVer (a b c : Nat) : Version := ⟨a, b, c, [], []⟩

/-- Characters compare by code point. -/
def chCmp (a b : Char) : Ordering := natCmp a.toNat b.toNat

/-- Pre-release identifiers: numeric below alphanumeric, numeric ones
numerically, alphanumeric ones by code points. -/
def preIdCmp : PreId → PreId → Ordering
  | .num a, .num b => natCmp a b
  | .num _, .str _ => .lt
  | .str _, .num _ => .gt
  | .str a, .str b => listCmp chCmp a.data b.data

/-- Pre-release lists: an empty list (a release) sorts above any
pre-release; two pre-releases compare lexicographically. -/
def preCmp : List PreId → List PreId → Ordering
  | [], [] => .eq
  | [], _ :: _ => .gt
  | _ :: _, [] => .lt
  | x :: xs, y :: ys => (preIdCmp x y).then (listCmp preIdCmp xs ys)

/-- Semantic-version precedence as a three-way comparison. -/
def vcmp : Version → Version → Ordering :=
  thenCmp (fun v w => natCmp v.major w.major)
    (thenCmp (fun v w => natCmp v.minor w.minor)
      (thenCmp (fun v w => natCmp v.patch w.patch)
        (fun v w => preCmp v.prerelease w.prerelease)))

def vlt (v w : Version) : Bool :=
  match vcmp v w with
  | .lt => true
  | _ => false

def vle (v w : Version) : Bool :=
  match vcmp v w with
  | .gt => false
  | _ => true

theorem preIdCmp_law : LawCmp preIdCmp := by
  have hch : LawCmp chCmp := lawCmp_comap natCmp_law Char.toNat
  have hlst := listCmp_law hch
  constructor
  · intro a b
    cases a <;> cases b <;> simp only [preIdCmp]
    · exact natCmp_law.symm _ _
    · rfl
    · rfl
    · exact hlst.symm _ _
  · intro a b d h1 h2
    cases a <;> cases b <;> cases d <;> simp only [preIdCmp] at h1 h2 ⊢ <;>
      first
      | rfl
      | exact natCmp_law.lt_trans _ _ _ h1 h2
      | exact hlst.lt_trans _ _ _ h1 h2
      | exact absurd h1 (by decide)
      | exact absurd h2 (by decide)
  · intro a b d h
    cases a <;> cases b <;> simp only [preIdCmp] at h <;> cases d <;>
      simp only [preIdCmp] <;>
      first
      | rfl
      | exact natCmp_law.eq_left _ _ _ h
      | exact hlst.eq_left _ _ _ h
      | exact absurd h (by decide)

theorem preCmp_cons_eq_listCmp (x : PreId) (xs : List PreId) (y : PreId)
    (ys : List PreId) :
    preCmp (x :: xs) (y :: ys) = listCmp preIdCmp (x :: xs) (y :: ys) := rfl

theorem preCmp_law : LawCmp preCmp := by
  have hlst := listCmp_law preIdCmp_law
  constructor
  · intro a b
    cases a with
    | nil => cases b <;> rfl
    | cons x xs =>
      cases b with
      | nil => rfl
      | cons y ys =>
        rw [preCmp_cons_eq_listCmp, preCmp_cons_eq_listCmp]
        exact hlst.symm _ _
  · intro a b d h1 h2
    cases a with
    | nil =>
      cases b with
      | nil => exact absurd h1 (by simp [preCmp])
      | cons y ys => exact absurd h1 (by simp [preCmp])
    | cons x xs =>
      cases b with
      | nil => exact absurd h2 (by cases d <;> simp [preCmp])
      | cons y ys =>
        cases d with
        | nil => rfl
        | cons z zs =>
          rw [preCmp_cons_eq_listCmp] at h1 h2 ⊢
          exact hlst.lt_trans _ _ _ h1 h2
  · intro a b d h
    cases a with
    | nil =>
      cases b with
      | nil => rfl
      | cons y ys => exact absurd h (by simp [preCmp])
    | cons x xs =>
      cases b with
      | nil => exact absurd h (by simp [preCmp])
      | cons y ys =>
        cases d with
        | nil => rfl
        | cons z zs =>
          rw [preCmp_cons_eq_listCmp] at h ⊢
          rw [preCmp_cons_eq_listCmp]
          exact hlst.eq_left _ _ _ h

theorem vcmp_law : LawCmp vcmp :=
  thenCmp_law (lawCmp_comap natCmp_law Version.major)
    (thenCmp_law (lawCmp_comap natCmp_law Version.minor)
      (thenCmp_law (lawCmp_comap natCmp_law Version.patch)
        (lawCmp_comap preCmp_law Version.prerelease)))

theorem vle_refl (v : Version) : vle v v = true := by
  unfold vle
  rw [lawCmp_self vcmp_law v]

theorem vle_of_vlt {v w : Version} (h : vlt v w = true) : vle v w = true := by
  unfold vlt at h
  unfold vle
  cases hc : vcmp v w <;> rw [hc] at h <;> simp_all

theorem vle_of_not_vlt {v w : Version} (h : vlt v w = false) : vle w v = true := by
  unfold vlt at h
  unfold vle
  rw [vcmp_law.symm w v]
  cases hc : vcmp v w <;> rw [hc] at h <;> simp_all [Ordering.swap]

theorem vle_trans {u v w : Version} (h1 : vle u v = true) (h2 : vle v w = true) :
    vle u w = true := by
  unfold vle at h1 h2 ⊢
  have h1 : vcmp u v ≠ .gt := by
    intro hc; rw [hc] at h1; simp_all
  have h2 : vcmp v w ≠ .gt := by
    intro hc; rw [hc] at h2; simp_all
  have := lawCmp_le_trans vcmp_law h1 h2
  cases hc : vcmp u w <;> simp_all

/-! ## Parsing versions and constraint strings

`semantic_version.Spec` parses a comma-joined conjunction of simple
requirement items `<op><version>` with operators `<`, `<=`, `==`/`=`
(or none), `>=`, `>`, `!=`, `^`, `~`, plus `*` for "any".  The embedding
parses full `major.minor.patch[-pre][+build]` version targets; inputs
outside this grammar make the parser return `none`, matching the
`ValueError` the library raises (which aborts a run).
-/

/-- Split a character list on a separator (like `str.split(sep)`:
`n` separators yield `n + 1` groups). -/
def splitOnC (sep : Char) : List Char → List (List Char)
  | [] => [[]]
  | c :: cs =>
    if c = sep then [] :: splitOnC sep cs
    else
      match splitOnC sep cs with
      | [] => [[c]]
      | g :: gs => (c :: g) :: gs

/-- Re-join groups with a separator (inverse of `splitOnC`). -/
def joinC (sep : Char) : List (List Char) → List Char
  | [] => []
  | [g] => g
  | g :: gs => g ++ sep :: joinC sep gs

/-- Strict decimal numeral: digits only, no leading zero (except `0`). -/
def parseNatL (l : List Char) : Option Nat :=
  match l with
  | [] => none
  | c :: cs =>
    if (c :: cs).all Char.isDigit then
      if c = '0' ∧ cs ≠ [] then none
      else some ((c :: cs).foldl (fun n ch => n * 10 + (ch.toNat - 48)) 0)
    else none

/-- Characters allowed in pre-release and build identifiers. -/
def validIdChar (c : Char) : Bool := c.isAlpha || c.isDigit || c = '-'

/-- One pre-release identifier: all-digit identifiers are numeric (and
must not have a leading zero), others are alphanumeric. -/
def parsePreIdL (l : List Char) : Option PreId :=
  match l with
  | [] => none
  | c :: cs =>
    if (c :: cs).all Char.isDigit then (parseNatL (c :: cs)).map .num
    else if (c :: cs).all validIdChar then some (.str (String.mk (c :: cs)))
    else none

def parseBuildIdL (l : List Char) : Option String :=
  match l with
  | [] => none
  | c :: cs =>
    if (c :: cs).all validIdChar then some (String.mk (c :: cs)) else none

/-- Option-valued map over a list (fails if any element fails). -/
def mapOpt {α β : Type} (f : α → Option β) : List α → Option (List β)
  | [] => some []
  | x :: xs =>
    match f x, mapOpt f xs with
    | some y, some ys => some (y :: ys)
    | _, _ => none

/-- Parse `major.minor.patch[-pre]` (the part before any `+`), attaching
already-parsed build metadata. -/
def parseVersionCore (core : List Char) (build : List String) : Option Version :=
  match splitOnC '-' core with
  | [] => none
  | base :: preParts =>
    match splitOnC '.' base with
    | [ma, mi, pa] =>
      match parseNatL ma, parseNatL mi, parseNatL pa with
      | some a, some b, some c =>
        if preParts.isEmpty then some ⟨a, b, c, [], build⟩
        else
          match mapOpt parsePreIdL (splitOnC '.' (joinC '-' preParts)) with
          | some ids => some ⟨a, b, c, ids, build⟩
          | none => none
      | _, _, _ => none
    | _ => none

/-- Parse a full semantic version `major.minor.patch[-pre][+build]`. -/
def parseVersionL (l : List Char) : Option Version :=
  match splitOnC '+' l with
  | [core] => parseVersionCore core []
  | [core, bpart] =>
    match mapOpt parseBuildIdL (splitOnC '.' bpart) with
    | some bs => parseVersionCore core bs
    | none => none
  | _ => none

/-- The comparison operators of `semantic_version.Spec` items. -/
inductive CompOp where
  | ltOp
  | leOp
  | eqOp
  | neOp
  | geOp
  | gtOp
  | caretOp
  | tildeOp
deriving DecidableEq, Repr

/-- One requirement item of a `Spec`: `*` or an operator and a target. -/
inductive SpecItem where
  | anyItem
  | item (op : CompOp) (target : Version)
deriving DecidableEq, Repr

/-- `Version.next_major` of `semantic_version`. -/
def nextMajor (v : Version) : Version :=
  if v.prerelease ≠ [] ∧ v.minor = 0 ∧ v.patch = 0 then ⟨v.major, 0, 0, [], []⟩
  else ⟨v.major + 1, 0, 0, [], []⟩

/-- `Version.next_minor` of `semantic_version`. -/
def nextMinor (v : Version) : Version :=
  if v.prerelease ≠ [] ∧ v.patch = 0 then ⟨v.major, v.minor, 0, [], []⟩
  else ⟨v.major, v.minor + 1, 0, [], []⟩

/-- Parse one requirement item (`SpecItem.parse`): an optional operator
prefixed to a version string, `==`/`=`/none meaning equality, `^` the
caret range and `~` the tilde range. -/
def parseItemL (l : List Char) : Option SpecItem :=
  match l with
  | ['*'] => some .anyItem
  | '<' :: '=' :: rest => (parseVersionL rest).map (.item .leOp)
  | '>' :: '=' :: rest => (parseVersionL rest).map (.item .geOp)
  | '=' :: '=' :: rest => (parseVersionL rest).map (.item .eqOp)
  | '!' :: '=' :: rest => (parseVersionL rest).map (.item .neOp)
  | '<' :: rest => (parseVersionL rest).map (.item .ltOp)
  | '>' :: rest => (parseVersionL rest).map (.item .gtOp)
  | '=' :: rest => (parseVersionL rest).map (.item .eqOp)
  | '^' :: rest => (parseVersionL rest).map (.item .caretOp)
  | '~' :: rest => (parseVersionL rest).map (.item .tildeOp)
  | rest => (parseVersionL rest).map (.item .eqOp)

/-- `SpecItem.match` of `semantic_version`: plain precedence comparisons
for the relational operators, `spec <= v < spec.next_major()` for caret
and `spec <= v < spec.next_minor()` for tilde. -/
def matchesItem (it : SpecItem) (v : Version) : Bool :=
  match it with
  | .anyItem => true
  | .item .ltOp t => vlt v t
  | .item .leOp t => vle v t
  | .item .eqOp t =>
    match vcmp v t with
    | .eq => true
    | _ => false
  | .item .neOp t =>
    match vcmp v t with
    | .eq => false
    | _ => true
  | .item .geOp t => vle t v
  | .item .gtOp t => vlt t v
  | .item .caretOp t => vle t v && vlt v (nextMajor t)
  | .item .tildeOp t => vle t v && vlt v (nextMinor t)

/-- A version matches a `Spec` iff it matches every item (the logical
AND of all requirement items). -/
def specMatches (items : List SpecItem) (v : Version) : Bool :=
  items.all (fun it => matchesItem it v)

/-! ## The constraint set of `JSDep`

`JSDep.versions_spec` is a `defaultdict(set)` mapping a package name to
the set of constraint strings registered so far.  The embedding keeps
each set as an insertion-ordered duplicate-free list (`set.add`).
Matching is order-independent, so this determinizes only the cosmetic
iteration order of `','.join(...)`.
-/

/-- `JSDep._add_spec` on one package's constraint set: an empty (falsy)
string is replaced by the default open range `>=0.0.0`, then the string
is added to the set. -/
def addConstraint (set : List String) (s : String) : List String :=
  let s1 := if s = "" then ">=0.0.0" else s
  if set.contains s1 then set else set ++ [s1]

/-- Split every constraint string of a set on commas, concatenated.
`JSDep._get_spec` evaluates `Spec(','.join(set))`, and splitting the
','-join of a non-empty collection equals concatenating the per-string
splits, which is how the token list is produced here. -/
def collectTokens : List String → List (List Char)
  | [] => []
  | s :: rest => splitOnC ',' s.data ++ collectTokens rest

/-- `JSDep._get_spec`: parse the comma-join of all accumulated
constraint strings.  An empty set renders `Spec('')`, which raises
`ValueError` in the library (`none` here); parsing failure of any item
likewise gives `none`. -/
def getSpec (strs : List String) : Option (List SpecItem) :=
  match strs with
  | [] => none
  | _ :: _ => mapOpt parseItemL (collectTokens strs)

/-- Python's `max` over a non-empty list: keep the first element, then
replace the candidate whenever a strictly greater element appears. -/
def pyMax : List Version → Option Version
  | [] => none
  | x :: xs => some (xs.foldl (fun acc y => if vlt acc y then y else acc) x)

/-- `Spec.select`: the maximum of the available versions that match
every item, or `None` when no version matches. -/
def specSelect (items : List SpecItem) (avail : List Version) : Option Version :=
  pyMax (avail.filter (fun v => specMatches items v))

/-- Resolution errors of `JSDep._resolve_dependencies`:
`RequirementMatchError` carries the package name, the composed
constraint and the available versions that the message
`'Unmatched dependency for ...'` embeds (the message renders the
versions in reversed, descending order — same list); `parseFailure`
stands for the `ValueError` a malformed constraint raises. -/
inductive RErr where
  | unmatched (name : String) (spec : List SpecItem) (available : List Version)
  | parseFailure (name : String)
deriving DecidableEq, Repr

/-- Version selection for one package, as performed by lines 111–116 of
`_resolve_dependencies`: build the `Spec` from the accumulated
constraint strings, `select` over the available versions, and fail with
`RequirementMatchError` when nothing matches. -/
def selectVersion (name : String) (strs : List String) (avail : List Version) :
    Except RErr Version :=
  match getSpec strs with
  | none => .error (.parseFailure name)
  | some items =>
    match specSelect items avail with
    | some v => .ok v
    | none => .error (.unmatched name items avail)

/-- The successfully selected version, if any (`Except` → `Option`). -/
def okVersion (r : Except RErr Version) : Option Version :=
  match r with
  | .ok v => some v
  | .error _ => none

/-! ## Properties of `pyMax` and `specSelect` -/

theorem pyMaxFold_spec (xs : List Version) (acc : Version) :
    (xs.foldl (fun a y => if vlt a y then y else a) acc) ∈ acc :: xs ∧
      ∀ w ∈ acc :: xs, vle w (xs.foldl (fun a y => if vlt a y then y else a) acc) = true := by
  induction xs generalizing acc with
  | nil =>
    refine ⟨List.mem_singleton.mpr rfl, ?_⟩
    intro w hw
    rw [List.mem_singleton] at hw
    subst hw
    exact vle_refl (List.foldl (fun a y => if vlt a y then y else a) w [])
  | cons y ys ih =>
    have step :
        (y :: ys).foldl (fun a b => if vlt a b then b else a) acc
          = ys.foldl (fun a b => if vlt a b then b else a) (if vlt acc y then y else acc) := rfl
    rcases ih (if vlt acc y then y else acc) with ⟨hmem, hbound⟩
    constructor
    · rw [step]
      rcases List.mem_cons.mp hmem with h | h
      · rw [h]
        by_cases hc : vlt acc y = true
        · rw [if_pos hc]
          exact List.mem_cons_of_mem _ (List.mem_cons_self _ _)
        · rw [if_neg hc]
          exact List.mem_cons_self _ _
      · exact List.mem_cons_of_mem _ (List.mem_cons_of_mem _ h)
    · intro w hw
      rw [step]
      have hacc1 : vle (if vlt acc y then y else acc) _ = true :=
        hbound _ (List.mem_cons_self _ _)
      rcases List.mem_cons.mp hw with h | h
      · subst h
        have hwle : vle w (if vlt w y then y else w) = true := by
          by_cases hc : vlt w y = true
          · rw [if_pos hc]; exact vle_of_vlt hc
          · rw [if_neg hc]; exact vle_refl w
        exact vle_trans hwle hacc1
      rcases List.mem_cons.mp h with h2 | h2
      · subst h2
        have hwle : vle w (if vlt acc w then w else acc) = true := by
          by_cases hc : vlt acc w = true
          · rw [if_pos hc]; exact vle_refl w
          · rw [if_neg hc]
            exact vle_of_not_vlt (by simp_all)
        exact vle_trans hwle hacc1
      · exact hbound w (List.mem_cons_of_mem _ h2)

theorem pyMax_spec {l : List Version} {v : Version} (h : pyMax l = some v) :
    v ∈ l ∧ ∀ w ∈ l, vle w v = true := by
  cases l with
  | nil => exact absurd h (by simp [pyMax])
  | cons x xs =>
    unfold pyMax at h
    rcases pyMaxFold_spec xs x with ⟨hmem, hbound⟩
    have hv : xs.foldl (fun a y => if vlt a y then y else a) x = v :=
      Option.some_injective _ h
    rw [hv] at hmem hbound
    exact ⟨hmem, hbound⟩

theorem pyMax_none {l : List Version} (h : pyMax l = none) : l = [] := by
  cases l with
  | nil => rfl
  | cons x xs => exact absurd h (by simp [pyMax])

/-- The per-string match: the string's own comma-split items, all
required (`none` when the string does not parse). -/
def strMatches (s : String) (v : Version) : Bool :=
  match mapOpt parseItemL (splitOnC ',' s.data) with
  | some its => specMatches its v
  | none => false

theorem mapOpt_cons {α β : Type} (f : α → Option β) (x : α) (l : List α) :
    mapOpt f (x :: l)
      = match f x, mapOpt f l with
        | some y, some ys => some (y :: ys)
        | _, _ => none := rfl

theorem mapOpt_append {α β : Type} (f : α → Option β) (l1 l2 : List α) :
    mapOpt f (l1 ++ l2)
      = match mapOpt f l1, mapOpt f l2 with
        | some a, some b => some (a ++ b)
        | _, _ => none := by
  induction l1 with
  | nil =>
    simp only [List.nil_append]
    cases mapOpt f l2 with
    | none => simp [mapOpt]
    | some b => simp [mapOpt]
  | cons x xs ih =>
    simp only [List.cons_append, mapOpt_cons]
    rw [ih]
    cases hfx : f x <;> cases h1 : mapOpt f xs <;> cases h2 : mapOpt f l2 <;> simp

theorem specMatches_append (a b : List SpecItem) (v : Version) :
    specMatches (a ++ b) v = (specMatches a v && specMatches b v) := by
  unfold specMatches
  exact List.all_append

theorem strMatches_parsed {s : String} {its : List SpecItem}
    (h : mapOpt parseItemL (splitOnC ',' s.data) = some its) (v : Version) :
    strMatches s v = specMatches its v := by
  unfold strMatches
  rw [h]

/-- Parsed token lists decompose per constraint string: when the
comma-join of a constraint set parses, a version matches the whole
`Spec` iff it matches every constraint string of the set. -/
theorem specMatches_collect {strs : List String} {items : List SpecItem}
    (h : mapOpt parseItemL (collectTokens strs) = some items) (v : Version) :
    specMatches items v = strs.all (fun s => strMatches s v) := by
  induction strs generalizing items with
  | nil =>
    simp only [collectTokens, mapOpt] at h
    cases h
    rfl
  | cons s rest ih =>
    simp only [collectTokens] at h
    rw [mapOpt_append] at h
    cases h1 : mapOpt parseItemL (splitOnC ',' s.data) with
    | none => rw [h1] at h; exact absurd h (by simp)
    | some its =>
      rw [h1] at h
      cases h2 : mapOpt parseItemL (collectTokens rest) with
      | none => rw [h2] at h; exact absurd h (by simp)
      | some its2 =>
        rw [h2] at h
        simp only at h
        cases h
        rw [specMatches_append, List.all_cons, strMatches_parsed h1 v, ih h2]

theorem collectTokens_append (a b : List String) :
    collectTokens (a ++ b) = collectTokens a ++ collectTokens b := by
  induction a with
  | nil => rfl
  | cons s rest ih => simp [collectTokens, ih]

/-! ## Claim theorems about version selection -/

/-- Claim C1: for a package name whose accumulated constraint set parses
(in particular it is non-empty), version selection returns the highest
available version satisfying the conjunction of all accumulated
constraint strings; when no available version satisfies them all, it
fails with a `RequirementMatchError` carrying the package name, the
composed constraint and the available-version list. -/
theorem claim_C1_select_highest (name : String) (strs : List String)
    (avail : List Version) (items : List SpecItem) (h : getSpec strs = some items) :
    match selectVersion name strs avail with
    | .ok v =>
        v ∈ avail ∧ strs.all (fun s => strMatches s v) = true ∧
          ∀ w ∈ avail, strs.all (fun s => strMatches s w) = true → vle w v = true
    | .error e =>
        (∀ w ∈ avail, strs.all (fun s => strMatches s w) = false) ∧
          e = .unmatched name items avail := by
  have hm : mapOpt parseItemL (collectTokens strs) = some items := by
    cases strs with
    | nil => exact absurd h (by simp [getSpec])
    | cons a rest => exact h
  have hsel : selectVersion name strs avail
      = match specSelect items avail with
        | some v => Except.ok v
        | none => Except.error (RErr.unmatched name items avail) := by
    unfold selectVersion
    rw [h]
  rw [hsel]
  cases hs : specSelect items avail with
  | some v =>
    show v ∈ avail ∧ strs.all (fun s => strMatches s v) = true ∧
      ∀ w ∈ avail, strs.all (fun s => strMatches s w) = true → vle w v = true
    unfold specSelect at hs
    rcases pyMax_spec hs with ⟨hmem, hbound⟩
    rw [List.mem_filter] at hmem
    refine ⟨hmem.1, ?_, ?_⟩
    · rw [← specMatches_collect hm v]
      exact hmem.2
    · intro w hw hall
      apply hbound
      rw [List.mem_filter]
      refine ⟨hw, ?_⟩
      rw [specMatches_collect hm w]
      exact hall
  | none =>
    show (∀ w ∈ avail, strs.all (fun s => strMatches s w) = false) ∧
      RErr.unmatched name items avail = RErr.unmatched name items avail
    unfold specSelect at hs
    have hnil := pyMax_none hs
    constructor
    · intro w hw
      rw [← specMatches_collect hm w]
      cases hmm : specMatches items w
      · rfl
      · exfalso
        have hmemf : w ∈ avail.filter (fun v => specMatches items v) :=
          List.mem_filter.mpr ⟨hw, hmm⟩
        rw [hnil] at hmemf
        exact absurd hmemf (List.not_mem_nil w)
    · rfl

/-- Witness for C1 at the spec's §8 example: requirement `>=1.0.0`,
available `[1.0.0, 1.1.0, 1.3.0]`, selected `1.3.0`. -/
theorem claim_C1_select_highest_witness :
    relVer 1 3 0 ∈ [relVer 1 0 0, relVer 1 1 0, relVer 1 3 0] ∧
      [">=1.0.0"].all (fun s => strMatches s (relVer 1 3 0)) = true ∧
      ∀ w ∈ [relVer 1 0 0, relVer 1 1 0, relVer 1 3 0],
        [">=1.0.0"].all (fun s => strMatches s w) = true → vle w (relVer 1 3 0) = true :=
  claim_C1_select_highest "left-pad" [">=1.0.0"]
    [relVer 1 0 0, relVer 1 1 0, relVer 1 3 0]
    [SpecItem.item .geOp (relVer 1 0 0)] rfl

/-- The pre-release version `0.0.0-alpha`, which sorts strictly below
`0.0.0` under semantic-version precedence. -/
def preAlpha : Version := ⟨0, 0, 0, [.str "alpha"], []⟩

/-- Claim C8 counterexample: registering the empty constraint string is
not selection-neutral.  With accumulated constraint `<0.1.0` and
available versions `[0.0.0-alpha]`, selection picks `0.0.0-alpha`; after
additionally registering the empty string (stored as `>=0.0.0`),
selection fails, because `0.0.0-alpha < 0.0.0`.  So the defaulted
constraint does exclude a version. -/
theorem claim_C8_counterexample :
    addConstraint ["<0.1.0"] "" = ["<0.1.0", ">=0.0.0"] ∧
      okVersion (selectVersion "B" ["<0.1.0"] [preAlpha]) = some preAlpha ∧
      okVersion (selectVersion "B" (addConstraint ["<0.1.0"] "") [preAlpha]) = none :=
  ⟨rfl, rfl, rfl⟩

/-- Claim C8 (amended): registering the empty constraint string adds the
default open range `>=0.0.0` to the set.  This leaves the selected
version unchanged for every available-version list whose versions are
all `≥ 0.0.0` — i.e. it can only exclude the pre-releases of `0.0.0`,
which sort below `0.0.0` (and, when the set was previously empty, it
turns the unparseable `Spec('')` into a parseable one). -/
theorem claim_C8_empty_constraint (name : String) (set : List String)
    (avail : List Version) (hne : set ≠ [])
    (hge : ∀ v ∈ avail, vle (relVer 0 0 0) v = true) :
    okVersion (selectVersion name (addConstraint set "") avail)
      = okVersion (selectVersion name set avail) := by
  have hadd : addConstraint set ""
      = if set.contains ">=0.0.0" then set else set ++ [">=0.0.0"] := rfl
  rw [hadd]
  by_cases hc : set.contains ">=0.0.0"
  · rw [if_pos hc]
  · rw [if_neg hc]
    cases set with
    | nil => exact absurd rfl hne
    | cons s0 rest =>
      have hct : collectTokens ((s0 :: rest) ++ [">=0.0.0"])
          = collectTokens (s0 :: rest) ++ [">=0.0.0".data] := by
        rw [collectTokens_append]
        rfl
      have hg1 : getSpec ((s0 :: rest) ++ [">=0.0.0"])
          = match mapOpt parseItemL (collectTokens (s0 :: rest)) with
            | some items => some (items ++ [SpecItem.item .geOp (relVer 0 0 0)])
            | none => none := by
        show mapOpt parseItemL (collectTokens ((s0 :: rest) ++ [">=0.0.0"])) = _
        rw [hct, mapOpt_append]
        cases hmo : mapOpt parseItemL (collectTokens (s0 :: rest)) <;> rfl
      have hg2 : getSpec (s0 :: rest) = mapOpt parseItemL (collectTokens (s0 :: rest)) := rfl
      unfold selectVersion
      rw [hg1, hg2]
      cases hmo : mapOpt parseItemL (collectTokens (s0 :: rest)) with
      | none => rfl
      | some items =>
        show okVersion (match specSelect (items ++ [SpecItem.item .geOp (relVer 0 0 0)]) avail with
              | some v => Except.ok v
              | none => Except.error (.unmatched name (items ++ [SpecItem.item .geOp (relVer 0 0 0)]) avail))
            = okVersion (match specSelect items avail with
              | some v => Except.ok v
              | none => Except.error (.unmatched name items avail))
        have hfil : avail.filter
              (fun v => specMatches (items ++ [SpecItem.item .geOp (relVer 0 0 0)]) v)
            = avail.filter (fun v => specMatches items v) := by
          apply List.filter_congr
          intro v hv
          rw [specMatches_append]
          have hone : specMatches [SpecItem.item .geOp (relVer 0 0 0)] v = true := by
            unfold specMatches
            simp only [List.all_cons, List.all_nil, Bool.and_true]
            exact hge v hv
          rw [hone, Bool.and_true]
        unfold specSelect
        rw [hfil]
        cases pyMax (avail.filter (fun v => specMatches items v)) <;> rfl

/-- Witness for the amended C8: constraint set `{<0.1.0}`, available
versions `[0.0.1]`; adding the empty constraint leaves the selected
version (`0.0.1`) unchanged. -/
theorem claim_C8_empty_constraint_witness :
    okVersion (selectVersion "p" (addConstraint ["<0.1.0"] "") [relVer 0 0 1])
      = okVersion (selectVersion "p" ["<0.1.0"] [relVer 0 0 1]) :=
  claim_C8_empty_constraint "p" ["<0.1.0"] [relVer 0 0 1] (by decide) (by decide)

/-! ## The breadth-first dependency resolver

`JSDep._resolve_dependencies` keeps a `dict` of resolved versions, a
queue (`bfs_stack`, popped at index 0 and appended at the end) and the
constraint-set mapping `versions_spec`.  Dictionaries are embedded as
association lists where assignment updates in place (preserving the
original insertion position, as a Python `dict` does).  The registry is
embedded as the already-parsed content behind `_get_metadata`: the
version list of a package and the dependency map of each version.
`_get_available_versions` sorts the versions ascending.  The loop is
given fuel; `none` models the non-termination of the Python loop on
cyclic dependency graphs.  The state carries two instrumentation fields
(dequeue `order` and the sequence of `resolved[name] = ...` `assigns`)
that no decision of the loop reads.
-/

def lookupA {α : Type} : List (String × α) → String → Option α
  | [], _ => none
  | (k, v) :: rest, key => if k = key then some v else lookupA rest key

def lookupD {α : Type} (l : List (String × α)) (key : String) (d : α) : α :=
  match lookupA l key with
  | some v => v
  | none => d

/-- Dictionary assignment: update in place or append a new key. -/
def setAssoc {α : Type} : List (String × α) → String → α → List (String × α)
  | [], key, v => [(key, v)]
  | (k, w) :: rest, key, v =>
    if k = key then (k, v) :: rest else (k, w) :: setAssoc rest key v

/-- Registry content: available versions per package and the dependency
map (name, constraint-string pairs) per package version. -/
structure Registry where
  versions : String → List Version
  deps : String → Version → List (String × String)

def insertSorted (v : Version) : List Version → List Version
  | [] => [v]
  | w :: ws => if vle v w then v :: w :: ws else w :: insertSorted v ws

/-- `JSDep._get_available_versions`: the registry's versions, sorted
ascending by precedence. -/
def sortVersions : List Version → List Version
  | [] => []
  | v :: vs => insertSorted v (sortVersions vs)

/-- `JSDep._add_spec` on the full mapping. -/
def addSpecTo (specs : List (String × List String)) (name s : String) :
    List (String × List String) :=
  setAssoc specs name (addConstraint (lookupD specs name []) s)

/-- Resolver state: constraint sets, resolved dict and queue, plus the
instrumentation fields `order` (dequeue order) and `assigns` (the
chronological sequence of `resolved[name] = version` assignments). -/
structure RState where
  specs : List (String × List String)
  resolved : List (String × Version)
  queue : List String
  order : List String
  assigns : List (String × Version)
deriving DecidableEq, Repr

/-- The main loop of `JSDep._resolve_dependencies` (lines 107–126):
pop the head of the queue, select its version from the constraints
accumulated so far, record it, then register every dependency's
constraint and append every dependency name to the queue —
unconditionally. -/
def resolveLoop (reg : Registry) : Nat → RState → Option (Except RErr RState)
  | fuel, st =>
    match st.queue with
    | [] => some (.ok st)
    | name :: rest =>
      match fuel with
      | 0 => none
      | f + 1 =>
        match selectVersion name (lookupD st.specs name [])
            (sortVersions (reg.versions name)) with
        | .error e => some (.error e)
        | .ok v =>
          resolveLoop reg f
            ⟨(reg.deps name v).foldl (fun sp d => addSpecTo sp d.1 d.2) st.specs,
             setAssoc st.resolved name v,
             rest ++ (reg.deps name v).map (fun d => d.1),
             st.order ++ [name],
             st.assigns ++ [(name, v)]⟩

/-- Lines 100–104 of `_resolve_dependencies`: register every initial
requirement's constraint and enqueue its name, in the given order. -/
def initState (initial : List (String × String)) : RState :=
  initial.foldl
    (fun st p =>
      ⟨addSpecTo st.specs p.1 p.2, st.resolved, st.queue ++ [p.1], st.order, st.assigns⟩)
    ⟨[], [], [], [], []⟩

def resolveDependencies (reg : Registry) (initial : List (String × String))
    (fuel : Nat) : Option (Except RErr RState) :=
  resolveLoop reg fuel (initState initial)

/-! ## The spec's description of the traversal (for claim C3)

Claim C3 describes the traversal in queue vocabulary: dequeue the
oldest entry, enqueue at the back, enqueue dependencies unconditionally.
The following definitions follow that description word for word; the C3
theorem proves them equal to the embedding of the source. -/

/-- Take the oldest queued name (FIFO). -/
def dequeueOldest (q : List String) : Option (String × List String) :=
  match q with
  | [] => none
  | n :: rest => some (n, rest)

/-- Enqueue at the back of the queue. -/
def enqueue (q : List String) (n : String) : List String := q ++ [n]

/-- The resolver loop as claim C3 words it: while the queue is
non-empty, dequeue the oldest name, resolve it with the constraints
accumulated so far, record the result, and for every dependency pair
register the constraint and enqueue the name — even if it was already
resolved or queued (no membership test is performed anywhere). -/
def resolveLoopSpec (reg : Registry) : Nat → RState → Option (Except RErr RState)
  | fuel, st =>
    match dequeueOldest st.queue with
    | none => some (.ok st)
    | some (name, rest) =>
      match fuel with
      | 0 => none
      | f + 1 =>
        match selectVersion name (lookupD st.specs name [])
            (sortVersions (reg.versions name)) with
        | .error e => some (.error e)
        | .ok v =>
          resolveLoopSpec reg f
            ⟨(reg.deps name v).foldl (fun sp d => addSpecTo sp d.1 d.2) st.specs,
             setAssoc st.resolved name v,
             (reg.deps name v).foldl (fun q d => enqueue q d.1) rest,
             st.order ++ [name],
             st.assigns ++ [(name, v)]⟩

/-- Initial requirements enqueued oldest-first, in the given order. -/
def initStateSpec (initial : List (String × String)) : RState :=
  initial.foldl
    (fun st p =>
      ⟨addSpecTo st.specs p.1 p.2, st.resolved, enqueue st.queue p.1, st.order, st.assigns⟩)
    ⟨[], [], [], [], []⟩

def resolveDependenciesSpec (reg : Registry) (initial : List (String × String))
    (fuel : Nat) : Option (Except RErr RState) :=
  resolveLoopSpec reg fuel (initStateSpec initial)

theorem enqueue_foldl (deps : List (String × String)) (q : List String) :
    deps.foldl (fun q d => enqueue q d.1) q = q ++ deps.map (fun d => d.1) := by
  induction deps generalizing q with
  | nil => simp
  | cons d ds ih =>
    show List.foldl (fun q d => enqueue q d.1) (enqueue q d.1) ds
        = q ++ d.1 :: List.map (fun d => d.1) ds
    rw [ih (enqueue q d.1)]
    simp [enqueue]

theorem resolveLoopSpec_eq (reg : Registry) :
    ∀ fuel st, resolveLoopSpec reg fuel st = resolveLoop reg fuel st := by
  intro fuel
  induction fuel with
  | zero =>
    intro st
    unfold resolveLoopSpec resolveLoop dequeueOldest
    cases st.queue <;> rfl
  | succ f ih =>
    intro st
    unfold resolveLoopSpec resolveLoop dequeueOldest
    cases hq : st.queue with
    | nil => rfl
    | cons name rest =>
      simp only
      cases selectVersion name (lookupD st.specs name [])
          (sortVersions (reg.versions name)) with
      | error e => rfl
      | ok v =>
        show resolveLoopSpec reg f
            ⟨(reg.deps name v).foldl (fun sp d => addSpecTo sp d.1 d.2) st.specs,
             setAssoc st.resolved name v,
             (reg.deps name v).foldl (fun q d => enqueue q d.1) rest,
             st.order ++ [name],
             st.assigns ++ [(name, v)]⟩
          = resolveLoop reg f
            ⟨(reg.deps name v).foldl (fun sp d => addSpecTo sp d.1 d.2) st.specs,
             setAssoc st.resolved name v,
             rest ++ (reg.deps name v).map (fun d => d.1),
             st.order ++ [name],
             st.assigns ++ [(name, v)]⟩
        rw [enqueue_foldl]
        exact ih _

/-- Claim C3: the resolver processes names in FIFO order — initial
requirements are enqueued in the given order, each step dequeues the
oldest queued name, resolves it with the constraints accumulated so
far, and registers and enqueues every dependency unconditionally.  The
queue-vocabulary restatement of the claim computes exactly what the
embedded source loop computes, on every registry, initial requirement
list, fuel and state. -/
theorem claim_C3_fifo_traversal (reg : Registry) (initial : List (String × String))
    (fuel : Nat) :
    resolveDependenciesSpec reg initial fuel = resolveDependencies reg initial fuel := by
  unfold resolveDependenciesSpec resolveDependencies
  rw [resolveLoopSpec_eq]
  have h0 : initStateSpec initial = initState initial := rfl
  rw [h0]

/-- Unfolding equation: non-empty queue, positive fuel. -/
theorem resolveLoop_cons (reg : Registry) (f : Nat) (st : RState) (name : String)
    (rest : List String) (hq : st.queue = name :: rest) :
    resolveLoop reg (f + 1) st
      = match selectVersion name (lookupD st.specs name [])
            (sortVersions (reg.versions name)) with
        | .error e => some (.error e)
        | .ok v =>
          resolveLoop reg f
            ⟨(reg.deps name v).foldl (fun sp d => addSpecTo sp d.1 d.2) st.specs,
             setAssoc st.resolved name v,
             rest ++ (reg.deps name v).map (fun d => d.1),
             st.order ++ [name],
             st.assigns ++ [(name, v)]⟩ := by
  conv_lhs => unfold resolveLoop
  rw [hq]

/-- Unfolding equation: empty queue terminates at any fuel. -/
theorem resolveLoop_nil (reg : Registry) (fuel : Nat) (st : RState)
    (hq : st.queue = []) : resolveLoop reg fuel st = some (.ok st) := by
  conv_lhs => unfold resolveLoop
  rw [hq]

/-- The registry of the re-resolution scenario: `A` (only version
`1.0.0`) depends on `B` with `<2.0.0`; `B` has versions `1.0.0` and
`2.0.0` and no dependencies. -/
def regBFS : Registry where
  versions := fun n =>
    if n = "A" then [relVer 1 0 0]
    else if n = "B" then [relVer 1 0 0, relVer 2 0 0]
    else []
  deps := fun n _ =>
    if n = "A" then [("B", "<2.0.0")] else []

/-- Initial requirements: `B >= 1.0.0` first, then `A` (no constraint). -/
def initBFS : List (String × String) := [("B", ">=1.0.0"), ("A", "")]

/-- The final state of resolving `initBFS` against `regBFS`. -/
def finalBFS : RState :=
  ⟨[("B", [">=1.0.0", "<2.0.0"]), ("A", [">=0.0.0"])],
   [("B", relVer 1 0 0), ("A", relVer 1 0 0)],
   [],
   ["B", "A", "B"],
   [("B", relVer 2 0 0), ("A", relVer 1 0 0), ("B", relVer 1 0 0)]⟩

/-- Claim C2 counterexample: a package IS re-resolved after a tightening
constraint arrives.  Resolving `[("B", ">=1.0.0"), ("A", "")]` against
`regBFS`: `B` is dequeued and assigned `2.0.0`; then `A` registers
`B < 2.0.0` and re-enqueues `B`; `B` is dequeued again and assigned
`1.0.0`, overwriting the entry — a later step records a different
version for the same name, and the tightening constraint registered
after `B` was resolved did change its entry in the resolved set. -/
theorem claim_C2_counterexample :
    resolveDependencies regBFS initBFS 9 = some (.ok finalBFS) ∧
      finalBFS.assigns
        = [("B", relVer 2 0 0), ("A", relVer 1 0 0), ("B", relVer 1 0 0)] ∧
      lookupA finalBFS.resolved "B" = some (relVer 1 0 0) ∧
      relVer 1 0 0 ≠ relVer 2 0 0 :=
  ⟨rfl, rfl, rfl, by decide⟩

/-- The last version assigned to `name` during the run. -/
def lastAssign (assigns : List (String × Version)) (name : String) : Option Version :=
  ((assigns.filter (fun p => p.1 == name)).getLast?).map (fun p => p.2)

theorem lookupA_setAssoc_self {α : Type} (l : List (String × α)) (k : String) (v : α) :
    lookupA (setAssoc l k v) k = some v := by
  induction l with
  | nil => simp [setAssoc, lookupA]
  | cons p rest ih =>
    rcases p with ⟨k0, w⟩
    unfold setAssoc
    by_cases hk : k0 = k
    · rw [if_pos hk]
      unfold lookupA
      rw [if_pos hk]
    · rw [if_neg hk]
      unfold lookupA
      rw [if_neg hk]
      exact ih

theorem lookupA_setAssoc_ne {α : Type} (l : List (String × α)) (k k2 : String) (v : α)
    (h : k2 ≠ k) : lookupA (setAssoc l k v) k2 = lookupA l k2 := by
  induction l with
  | nil =>
    show lookupA [(k, v)] k2 = lookupA [] k2
    unfold lookupA
    rw [if_neg (fun hh => h hh.symm)]
    rfl
  | cons p rest ih =>
    rcases p with ⟨k0, w⟩
    unfold setAssoc
    by_cases hk : k0 = k
    · rw [if_pos hk]
      show lookupA ((k0, v) :: rest) k2 = lookupA ((k0, w) :: rest) k2
      unfold lookupA
      rw [if_neg (fun hh => h (hk ▸ hh).symm), if_neg (fun hh => h (hk ▸ hh).symm)]
    · rw [if_neg hk]
      show lookupA ((k0, w) :: setAssoc rest k v) k2 = lookupA ((k0, w) :: rest) k2
      unfold lookupA
      by_cases hk2 : k0 = k2
      · rw [if_pos hk2, if_pos hk2]
      · rw [if_neg hk2, if_neg hk2]
        exact ih

theorem lastAssign_append_self (a : List (String × Version)) (k : String) (v : Version) :
    lastAssign (a ++ [(k, v)]) k = some v := by
  unfold lastAssign
  rw [List.filter_append]
  have hf : List.filter (fun p => p.1 == k) [(k, v)] = [(k, v)] := by simp
  rw [hf, List.getLast?_concat]
  rfl

theorem lastAssign_append_ne (a : List (String × Version)) (k k2 : String) (v : Version)
    (h : k2 ≠ k) : lastAssign (a ++ [(k, v)]) k2 = lastAssign a k2 := by
  unfold lastAssign
  rw [List.filter_append]
  have hf : List.filter (fun p => p.1 == k2) [(k, v)] = [] := by
    have hb : ((k, v).1 == k2) = false := by
      simp only [beq_eq_false_iff_ne]
      exact fun hh => h hh.symm
    simp [List.filter, hb]
  rw [hf, List.append_nil]

theorem resolveLoop_lastAssign (reg : Registry) :
    ∀ fuel st, (∀ n, lookupA st.resolved n = lastAssign st.assigns n) →
      ∀ stf, resolveLoop reg fuel st = some (.ok stf) →
        ∀ n, lookupA stf.resolved n = lastAssign stf.assigns n := by
  intro fuel
  induction fuel with
  | zero =>
    intro st hinv stf h
    cases hq : st.queue with
    | nil =>
      rw [resolveLoop_nil reg 0 st hq] at h
      simp only [Option.some.injEq, Except.ok.injEq] at h
      subst h
      exact hinv
    | cons name rest =>
      unfold resolveLoop at h
      rw [hq] at h
      simp at h
  | succ f ih =>
    intro st hinv stf h
    cases hq : st.queue with
    | nil =>
      rw [resolveLoop_nil reg (f + 1) st hq] at h
      simp only [Option.some.injEq, Except.ok.injEq] at h
      subst h
      exact hinv
    | cons name rest =>
      rw [resolveLoop_cons reg f st name rest hq] at h
      cases hsel : selectVersion name (lookupD st.specs name [])
          (sortVersions (reg.versions name)) with
      | error e =>
        rw [hsel] at h
        simp at h
      | ok v =>
        rw [hsel] at h
        refine ih _ ?_ stf h
        intro n
        show lookupA (setAssoc st.resolved name v) n
          = lastAssign (st.assigns ++ [(name, v)]) n
        by_cases hn : n = name
        · subst hn
          rw [lookupA_setAssoc_self, lastAssign_append_self]
        · rw [lookupA_setAssoc_ne _ _ _ _ hn, lastAssign_append_ne _ _ _ _ hn, hinv n]

theorem initState_resolved_assigns (initial : List (String × String)) :
    (initState initial).resolved = [] ∧ (initState initial).assigns = [] := by
  have aux : ∀ (l : List (String × String)) (st : RState),
      (l.foldl (fun st p =>
        (⟨addSpecTo st.specs p.1 p.2, st.resolved, st.queue ++ [p.1], st.order,
          st.assigns⟩ : RState)) st).resolved = st.resolved ∧
      (l.foldl (fun st p =>
        (⟨addSpecTo st.specs p.1 p.2, st.resolved, st.queue ++ [p.1], st.order,
          st.assigns⟩ : RState)) st).assigns = st.assigns := by
    intro l
    induction l with
    | nil => intro st; exact ⟨rfl, rfl⟩
    | cons p ps ih => intro st; exact ih _
  exact aux initial ⟨[], [], [], [], []⟩

/-- Claim C2 (amended): a name re-enqueued after being resolved IS
re-resolved at its next dequeue, overwriting its entry; consequently,
when a run completes, every name's entry in the resolved set is the
version of the chronologically LAST assignment made for that name
(which reflects all constraints accumulated up to its last dequeue),
not necessarily the first. -/
theorem claim_C2_last_assignment_wins (reg : Registry)
    (initial : List (String × String)) (fuel : Nat) (stf : RState)
    (h : resolveDependencies reg initial fuel = some (.ok stf)) (n : String) :
    lookupA stf.resolved n = lastAssign stf.assigns n := by
  rcases initState_resolved_assigns initial with ⟨h1, h2⟩
  refine resolveLoop_lastAssign reg fuel (initState initial) ?_ stf h n
  intro m
  rw [h1, h2]
  rfl

/-- Witness for the amended C2, at the re-resolution scenario: the final
entry for `B` equals its last assignment (`1.0.0`). -/
theorem claim_C2_last_assignment_wins_witness :
    lookupA finalBFS.resolved "B" = lastAssign finalBFS.assigns "B" :=
  claim_C2_last_assignment_wins regBFS initBFS 9 finalBFS rfl "B"

/-! ## SHA-1 and `JSDep._validate_hash`

`_validate_hash` computes `hashlib.sha1(data).hexdigest()` and compares
it with the registry-declared checksum using `==` on strings.  SHA-1 is
embedded in full (FIPS 180: pad to 64-byte blocks with a `0x80` marker
and the 64-bit big-endian bit length, then 80 rounds per block over a
five-word state); `hexdigest` renders the 20 digest bytes as lowercase
hexadecimal. -/

def pow32 : Nat := 4294967296

def rotl32 (k n : Nat) : Nat := ((n <<< k) % pow32) ||| (n >>> (32 - k))

def lenBytes8 (n : Nat) : List Nat :=
  [(n >>> 56) % 256, (n >>> 48) % 256, (n >>> 40) % 256, (n >>> 32) % 256,
   (n >>> 24) % 256, (n >>> 16) % 256, (n >>> 8) % 256, n % 256]

def sha1Pad (msg : List Nat) : List Nat :=
  let m := msg.map (fun b => b % 256)
  let len := m.length
  let padZeros := (64 - ((len + 9) % 64)) % 64
  m ++ [128] ++ List.replicate padZeros 0 ++ lenBytes8 (len * 8)

def chunk64 : Nat → List Nat → List (List Nat)
  | 0, _ => []
  | _, [] => []
  | f + 1, l => l.take 64 :: chunk64 f (l.drop 64)

def words16 : List Nat → List Nat
  | b0 :: b1 :: b2 :: b3 :: rest =>
      (((b0 * 256 + b1) * 256 + b2) * 256 + b3) :: words16 rest
  | _ => []

/-- Extend the 16 schedule words to 80 (accumulator newest-first). -/
def extendW : Nat → List Nat → List Nat
  | 0, acc => acc
  | f + 1, acc =>
      extendW f
        (rotl32 1 (((acc.getD 2 0) ^^^ (acc.getD 7 0)) ^^^
          ((acc.getD 13 0) ^^^ (acc.getD 15 0))) :: acc)

def sha1F (i b c d : Nat) : Nat :=
  if i < 20 then (b &&& c) ||| (((pow32 - 1) ^^^ b) &&& d)
  else if i < 40 then (b ^^^ c) ^^^ d
  else if i < 60 then ((b &&& c) ||| (b &&& d)) ||| (c &&& d)
  else (b ^^^ c) ^^^ d

def sha1K (i : Nat) : Nat :=
  if i < 20 then 1518500249
  else if i < 40 then 1859775393
  else if i < 60 then 2400959708
  else 3395469782

def sha1Loop : Nat → (Nat × Nat × Nat × Nat × Nat) → List Nat →
    (Nat × Nat × Nat × Nat × Nat)
  | _, st, [] => st
  | i, (a, b, c, d, e), w :: rest =>
      sha1Loop (i + 1)
        ((rotl32 5 a + sha1F i b c d + e + sha1K i + w) % pow32, a,
          rotl32 30 b, c, d) rest

def sha1Chunk (h : Nat × Nat × Nat × Nat × Nat) (chunk : List Nat) :
    Nat × Nat × Nat × Nat × Nat :=
  let ws := (extendW 64 (words16 chunk).reverse).reverse
  match h, sha1Loop 0 h ws with
  | (h0, h1, h2, h3, h4), (a, b, c, d, e) =>
      ((h0 + a) % pow32, (h1 + b) % pow32, (h2 + c) % pow32,
       (h3 + d) % pow32, (h4 + e) % pow32)

def wordBytes (w : Nat) : List Nat :=
  [(w >>> 24) % 256, (w >>> 16) % 256, (w >>> 8) % 256, w % 256]

/-- SHA-1 digest (20 bytes) of a byte sequence. -/
def sha1 (msg : List Nat) : List Nat :=
  let padded := sha1Pad msg
  let chunks := chunk64 padded.length padded
  match chunks.foldl sha1Chunk
      (1732584193, 4023233417, 2562383102, 271733878, 3285377520) with
  | (h0, h1, h2, h3, h4) =>
      wordBytes h0 ++ wordBytes h1 ++ wordBytes h2 ++ wordBytes h3 ++ wordBytes h4

/-- Lowercase hexadecimal digit for a nibble (`0`–`9` then `a`–`f`). -/
def hexChar (n : Nat) : Char :=
  if n < 10 then Char.ofNat (48 + n)
  else if n < 16 then Char.ofNat (87 + n)
  else '0'

def bytesToHex : List Nat → List Char
  | [] => []
  | b :: rest => hexChar (b / 16) :: hexChar (b % 16) :: bytesToHex rest

/-- `hashlib.sha1(data).hexdigest()`: lowercase hexadecimal rendering. -/
def sha1hex (msg : List Nat) : String := String.mk (bytesToHex (sha1 msg))

/-- `JSDep._validate_hash`: exact string comparison of the computed hex
digest against the declared checksum (and on mismatch the code prints
the computed and expected digests and returns `False`). -/
def validateHash (data : List Nat) (shasum : String) : Bool :=
  sha1hex data == shasum

/-- The sixteen lowercase hexadecimal digits. -/
def hexDigits : List Char := (List.range 16).map hexChar

theorem hexChar_mem (n : Nat) : hexChar n ∈ hexDigits := by
  by_cases h : n < 16
  · exact List.mem_map.mpr ⟨n, List.mem_range.mpr h, rfl⟩
  · have h0 : hexChar n = '0' := by
      unfold hexChar
      rw [if_neg (by omega), if_neg (by omega)]
    rw [h0]
    exact List.mem_map.mpr ⟨0, List.mem_range.mpr (by omega), by decide⟩

theorem bytesToHex_mem : ∀ (bs : List Nat) (c : Char), c ∈ bytesToHex bs → c ∈ hexDigits := by
  intro bs
  induction bs with
  | nil =>
    intro c hc
    exact absurd hc (by simp [bytesToHex])
  | cons b rest ih =>
    intro c hc
    unfold bytesToHex at hc
    rcases List.mem_cons.mp hc with h | h
    · rw [h]; exact hexChar_mem _
    rcases List.mem_cons.mp h with h2 | h2
    · rw [h2]; exact hexChar_mem _
    · exact ih c h2

/-- ASCII lowercase of one character. -/
def lcChar (c : Char) : Char :=
  if 'A' ≤ c ∧ c ≤ 'Z' then Char.ofNat (c.toNat + 32) else c

set_option maxRecDepth 400000 in
/-- Claim C5 counterexample: checksum comparison is case-SENSITIVE.
The SHA-1 digest of the empty byte string is
`da39a3ee5e6b4b0d3255bfef95601890afd80709`; the uppercase rendering of
the same hex string differs only in letter case, yet validation rejects
it. -/
theorem claim_C5_counterexample :
    sha1hex [] = "da39a3ee5e6b4b0d3255bfef95601890afd80709" ∧
      "DA39A3EE5E6B4B0D3255BFEF95601890AFD80709".data.map lcChar = (sha1hex []).data ∧
      "DA39A3EE5E6B4B0D3255BFEF95601890AFD80709" ≠ sha1hex [] ∧
      validateHash [] "DA39A3EE5E6B4B0D3255BFEF95601890AFD80709" = false :=
  ⟨by decide, by decide, by decide, by decide⟩

/-- Claim C5 (amended): validation compares the computed SHA-1 hex
digest with the expected checksum by exact, case-sensitive string
equality; since `hexdigest` emits only lowercase hexadecimal
characters, an expected checksum that differs from the digest only in
letter case is rejected. -/
theorem claim_C5_exact_comparison (data : List Nat) (shasum : String) :
    (validateHash data shasum = true ↔ shasum = sha1hex data) ∧
      (sha1hex data).data.all (fun c => decide (c ∈ hexDigits)) = true := by
  constructor
  · unfold validateHash
    rw [beq_iff_eq]
    exact eq_comm
  · rw [List.all_eq_true]
    intro c hc
    exact decide_eq_true (bytesToHex_mem (sha1 data) c hc)

/-! ## Filesystem model and `JSDep._download_package`

Paths are component lists; a filesystem is the set of existing paths
(a path is a directory when some strictly longer path extends it).
`_download_package` downloads the archive, validates the checksum
(returning `None` — a skip — on mismatch), extracts the archive into
the output directory (npm tarballs carry one top-level `package`
folder), and `os.rename`s `output/package` onto `output/<name>`.
`os.rename` onto an existing non-empty directory fails with `OSError`
(`ENOTEMPTY`), which nothing in the recipe catches; renaming a path
onto itself succeeds and changes nothing. -/

def pathStarts : List String → List String → Bool
  | [], _ => true
  | _ :: _, [] => false
  | a :: ar, b :: br => a == b && pathStarts ar br

def addPath (fs : List (List String)) (p : List String) : List (List String) :=
  if fs.contains p then fs else fs ++ [p]

/-- Is `p` a directory with at least one entry below it? -/
def nonEmptyDir (fs : List (List String)) (p : List String) : Bool :=
  fs.any (fun q => pathStarts p q && decide (p.length < q.length))

/-- `os.rename(src, dst)`: a no-op when `src = dst`; fails when the
destination is a non-empty directory; otherwise removes an empty
directory at `dst` and relocates the `src` subtree to `dst`. -/
def renameFS (fs : List (List String)) (src dst : List String) :
    Except Unit (List (List String)) :=
  if src = dst then .ok fs
  else if nonEmptyDir fs dst then .error ()
  else
    .ok (fs.filterMap (fun q =>
      if q = dst then none
      else if pathStarts src q then some (dst ++ q.drop src.length)
      else some q))

/-- `tarfile.extractall(output)`: the archive member paths appear under
the output directory (existing files are overwritten in place). -/
def extractAll (fs : List (List String)) (out : List String)
    (entries : List (List String)) : List (List String) :=
  entries.foldl (fun acc e => addPath acc (out ++ e)) fs

/-- Distribution data of one package version: archive bytes, declared
checksum, and the archive's member paths. -/
structure DistInfo where
  data : List Nat
  shasum : String
  entries : List (List String)
deriving DecidableEq, Repr

/-- Events observable during `_setup`: the lock-record write, and per
package its download, checksum failure (carrying the computed and the
expected digest, as printed by `_validate_hash`), extraction, and the
rename into place. -/
inductive Event where
  | lock (versions : List (String × Version))
  | download (name : String)
  | hashFail (name : String) (computed expected : String)
  | extract (name : String)
  | renamed (name : String)
deriving DecidableEq, Repr

def isLockEvent : Event → Bool
  | .lock _ => true
  | _ => false

def isDownloadEvent : Event → Bool
  | .download _ => true
  | _ => false

/-- Outcome of `_download_package`: emitted events, resulting
filesystem, and whether an uncaught `OSError` aborted the run.  (The
Python function returns `None` on every path; its caller ignores the
return value, so a checksum failure merely skips the package.) -/
structure DlOut where
  events : List Event
  fs : List (List String)
  aborted : Bool
deriving DecidableEq, Repr

/-- `JSDep._download_package` (lines 145–172), with symlinking disabled
(no `symlink-to-directory` configured). -/
def downloadPackage (out : List String) (fs : List (List String)) (name : String)
    (d : DistInfo) (validate : Bool) : DlOut :=
  if validate && !(validateHash d.data d.shasum) then
    ⟨[.download name, .hashFail name (sha1hex d.data) d.shasum], fs, false⟩
  else
    if nonEmptyDir (extractAll fs out d.entries) (out ++ ["package"]) then
      match renameFS (extractAll fs out d.entries) (out ++ ["package"])
          (out ++ [name]) with
      | .error _ => ⟨[.download name, .extract name], extractAll fs out d.entries, true⟩
      | .ok fs2 => ⟨[.download name, .extract name, .renamed name], fs2, false⟩
    else ⟨[.download name, .extract name], extractAll fs out d.entries, false⟩

structure RunOut where
  events : List Event
  fs : List (List String)
  aborted : Bool
deriving DecidableEq, Repr

/-- The download loop of `_setup` (lines 231–233): download each
resolved package in order; a checksum failure skips just that package;
an uncaught `OSError` aborts the run. -/
def runDownloads (out : List String) : List (List String) → List (String × DistInfo) → RunOut
  | fs, [] => ⟨[], fs, false⟩
  | fs, (name, d) :: rest =>
    if (downloadPackage out fs name d true).aborted then
      ⟨(downloadPackage out fs name d true).events,
       (downloadPackage out fs name d true).fs, true⟩
    else
      ⟨(downloadPackage out fs name d true).events
          ++ (runDownloads out (downloadPackage out fs name d true).fs rest).events,
       (runDownloads out (downloadPackage out fs name d true).fs rest).fs,
       (runDownloads out (downloadPackage out fs name d true).fs rest).aborted⟩

inductive SetupErr where
  | res (e : RErr)
  | osError
deriving DecidableEq, Repr

structure SetupOut where
  events : List Event
  fs : List (List String)
  result : Except SetupErr (List (String × Version))
deriving Repr

/-- The fixed lock-record path `.package-lock.json`. -/
def lockPath : List String := [".package-lock.json"]

/-- `JSDep._setup` (lines 217–235): create the output directory,
resolve, and — only when at least one version was selected — write the
lock record once and then download every resolved package in mapping
order.  A resolution error aborts before anything is written; an
uncaught `OSError` during a download aborts the rest of the run.
`dists` stands for the distribution descriptor returned by the (cached)
`_get_metadata(name, version)` call of line 232. -/
def setup (reg : Registry) (dists : String → Version → DistInfo)
    (initial : List (String × String)) (fuel : Nat) (out : List String)
    (fs0 : List (List String)) : Option SetupOut :=
  match resolveDependencies reg initial fuel with
  | none => none
  | some (.error e) => some ⟨[], addPath fs0 out, .error (.res e)⟩
  | some (.ok st) =>
    match st.resolved with
    | [] => some ⟨[], addPath fs0 out, .ok []⟩
    | r0 :: rs =>
      some ⟨Event.lock (r0 :: rs)
          :: (runDownloads out (addPath (addPath fs0 out) lockPath)
                ((r0 :: rs).map (fun p => (p.1, dists p.1 p.2)))).events,
        (runDownloads out (addPath (addPath fs0 out) lockPath)
          ((r0 :: rs).map (fun p => (p.1, dists p.1 p.2)))).fs,
        if (runDownloads out (addPath (addPath fs0 out) lockPath)
              ((r0 :: rs).map (fun p => (p.1, dists p.1 p.2)))).aborted then
          .error .osError
        else .ok (r0 :: rs)⟩

/-- `JSDep.install` runs the resolve-lock-download sequence. -/
def install (reg : Registry) (dists : String → Version → DistInfo)
    (initial : List (String × String)) (fuel : Nat) (out : List String)
    (fs0 : List (List String)) : Option SetupOut :=
  setup reg dists initial fuel out fs0

/-- `JSDep.update` runs the identical sequence. -/
def update (reg : Registry) (dists : String → Version → DistInfo)
    (initial : List (String × String)) (fuel : Nat) (out : List String)
    (fs0 : List (List String)) : Option SetupOut :=
  setup reg dists initial fuel out fs0

/-! ## Registry metadata memoization (`JSDep._get_metadata`) -/

def lookupK {κ α : Type} [DecidableEq κ] : List (κ × α) → κ → Option α
  | [], _ => none
  | (k, v) :: rest, key => if k = key then some v else lookupK rest key

theorem lookupK_append_none {κ α : Type} [DecidableEq κ] (l : List (κ × α))
    (k : κ) (v : α) (h : lookupK l k = none) : lookupK (l ++ [(k, v)]) k = some v := by
  induction l with
  | nil => simp [lookupK]
  | cons p rest ih =>
    rcases p with ⟨k0, w⟩
    unfold lookupK at h ⊢
    by_cases hk : k0 = k
    · rw [if_pos hk] at h
      exact absurd h (by simp)
    · rw [if_neg hk] at h
      show (if k0 = k then some w else lookupK (rest ++ [(k, v)]) k) = some v
      rw [if_neg hk]
      exact ih h

/-- One memoized metadata call: value, cache afterwards, and whether a
network request was issued. -/
structure CacheResult (α : Type) where
  value : α
  cache : List ((String × Option Version) × α)
  requested : Bool
deriving Repr

/-- Modelled from the spec: the memoization that the external
`infi.pyutils` `lazy.cached_method` decorator adds to
`JSDep._get_metadata` (§4.1, §9 of the spec) — results cached by the
argument tuple, `(name)` or `(name, version)`; a hit returns the cached
value without a network request, a miss issues one request (`net` is
the run's immutable registry response per key) and stores the result. -/
def getMetadata {α : Type} (net : String × Option Version → α)
    (cache : List ((String × Option Version) × α))
    (k : String × Option Version) : CacheResult α :=
  match lookupK cache k with
  | some v => ⟨v, cache, false⟩
  | none => ⟨net k, cache ++ [(k, net k)], true⟩

/-- Claim C7: registry metadata queries are memoized by `(name)` or
`(name, version)` key — a second query with the same key returns the
same value as the first, leaves the cache unchanged, and issues no
further network request. -/
theorem claim_C7_metadata_memoized {α : Type} (net : String × Option Version → α)
    (cache : List ((String × Option Version) × α)) (k : String × Option Version) :
    getMetadata net (getMetadata net cache k).cache k
      = ⟨(getMetadata net cache k).value, (getMetadata net cache k).cache, false⟩ := by
  cases h : lookupK cache k with
  | some v =>
    have h1 : getMetadata net cache k = ⟨v, cache, false⟩ := by
      unfold getMetadata
      rw [h]
    rw [h1]
    show getMetadata net cache k = ⟨v, cache, false⟩
    exact h1
  | none =>
    have h1 : getMetadata net cache k = ⟨net k, cache ++ [(k, net k)], true⟩ := by
      unfold getMetadata
      rw [h]
    rw [h1]
    show getMetadata net (cache ++ [(k, net k)]) k = ⟨net k, cache ++ [(k, net k)], false⟩
    unfold getMetadata
    rw [lookupK_append_none cache k (net k) h]

/-! ## Claim theorems about the install pipeline -/

theorem downloadPackage_no_lock (out : List String) (fs : List (List String))
    (name : String) (d : DistInfo) (validate : Bool) :
    (downloadPackage out fs name d validate).events.all (fun e => !isLockEvent e) = true := by
  unfold downloadPackage
  split
  · rfl
  · split
    · split
      · rfl
      · rfl
    · rfl

theorem runDownloads_no_lock (out : List String) :
    ∀ (pkgs : List (String × DistInfo)) (fs : List (List String)),
      (runDownloads out fs pkgs).events.all (fun e => !isLockEvent e) = true := by
  intro pkgs
  induction pkgs with
  | nil => intro fs; rfl
  | cons p rest ih =>
    intro fs
    rcases p with ⟨name, d⟩
    unfold runDownloads
    split
    · exact downloadPackage_no_lock out fs name d true
    · show (_ ++ _ : List Event).all _ = true
      rw [List.all_append]
      rw [downloadPackage_no_lock out fs name d true, ih _]
      rfl

theorem runDownloads_cons (out : List String) (fs : List (List String))
    (name : String) (d : DistInfo) (rest : List (String × DistInfo)) :
    runDownloads out fs ((name, d) :: rest)
      = if (downloadPackage out fs name d true).aborted then
          ⟨(downloadPackage out fs name d true).events,
           (downloadPackage out fs name d true).fs, true⟩
        else
          ⟨(downloadPackage out fs name d true).events
              ++ (runDownloads out (downloadPackage out fs name d true).fs rest).events,
           (runDownloads out (downloadPackage out fs name d true).fs rest).fs,
           (runDownloads out (downloadPackage out fs name d true).fs rest).aborted⟩ := by
  conv_lhs => unfold runDownloads

/-- Claim C4: with validation enabled, a SHA-1 mismatch makes the
package's install abort before extraction — the filesystem is
unchanged, the emitted events are just the download and the failure
report carrying the computed and the expected digest — while the
remaining packages are processed exactly as they would have been, and
no step of download processing ever writes (or removes) a lock record. -/
theorem claim_C4_checksum_mismatch (out : List String) (fs : List (List String))
    (name : String) (d : DistInfo) (post : List (String × DistInfo))
    (h : sha1hex d.data ≠ d.shasum) :
    downloadPackage out fs name d true
        = ⟨[.download name, .hashFail name (sha1hex d.data) d.shasum], fs, false⟩ ∧
      runDownloads out fs ((name, d) :: post)
        = ⟨[.download name, .hashFail name (sha1hex d.data) d.shasum]
              ++ (runDownloads out fs post).events,
           (runDownloads out fs post).fs, (runDownloads out fs post).aborted⟩ ∧
      (runDownloads out fs ((name, d) :: post)).events.all
          (fun e => !isLockEvent e) = true := by
  have hv : validateHash d.data d.shasum = false := by
    unfold validateHash
    exact beq_eq_false_iff_ne.mpr h
  have hdl : downloadPackage out fs name d true
      = ⟨[.download name, .hashFail name (sha1hex d.data) d.shasum], fs, false⟩ := by
    unfold downloadPackage
    rw [hv]
    simp
  refine ⟨hdl, ?_, runDownloads_no_lock out ((name, d) :: post) fs⟩
  rw [runDownloads_cons, hdl]
  simp

theorem addPath_mem (fs : List (List String)) (q p : List String) (h : p ∈ fs) :
    p ∈ addPath fs q := by
  unfold addPath
  split
  · exact h
  · exact List.mem_append_left _ h

theorem extractAll_mem (out : List String) (entries : List (List String)) :
    ∀ (fs : List (List String)) (p : List String), p ∈ fs →
      p ∈ extractAll fs out entries := by
  induction entries with
  | nil => intro fs p h; exact h
  | cons e rest ih =>
    intro fs p h
    show p ∈ extractAll (addPath fs (out ++ e)) out rest
    exact ih _ p (addPath_mem fs (out ++ e) p h)

/-- Claim C9 (amended): extraction stages the archive under the fixed
name `package` inside the output directory and `os.rename` moves it
into place — the rename is a single atomic call, but it does NOT
replace existing contents: when `outputDirectory/packageName` is
already a non-empty directory, the rename raises an uncaught `OSError`,
the package's prior files are left in place (mixed with the freshly
extracted staging files left at `outputDirectory/package`), and the run
aborts. -/
theorem claim_C9_rename_not_replacing (out : List String) (fs : List (List String))
    (name : String) (d : DistInfo)
    (hv : validateHash d.data d.shasum = true)
    (hstage : nonEmptyDir (extractAll fs out d.entries) (out ++ ["package"]) = true)
    (hneq : (out ++ ["package"] : List String) ≠ out ++ [name])
    (hdst : nonEmptyDir (extractAll fs out d.entries) (out ++ [name]) = true) :
    downloadPackage out fs name d true
        = ⟨[.download name, .extract name], extractAll fs out d.entries, true⟩ ∧
      ∀ p ∈ fs, p ∈ (downloadPackage out fs name d true).fs := by
  have hr : renameFS (extractAll fs out d.entries) (out ++ ["package"]) (out ++ [name])
      = .error () := by
    unfold renameFS
    rw [if_neg hneq, if_pos hdst]
  have hdl : downloadPackage out fs name d true
      = ⟨[.download name, .extract name], extractAll fs out d.entries, true⟩ := by
    unfold downloadPackage
    rw [hv]
    rw [if_neg (by decide), if_pos hstage, hr]
  refine ⟨hdl, ?_⟩
  rw [hdl]
  intro p hp
  exact extractAll_mem out d.entries fs p hp

/-- An archive with one `package/f.js` member, a correct checksum of
its (empty) data, used by the C9 scenarios. -/
def distC9 : DistInfo := ⟨[], sha1hex [], [["package"], ["package", "f.js"]]⟩

set_option maxRecDepth 400000 in
/-- Claim C9 counterexample: the rename does not replace prior contents
at `outputDirectory/packageName`.  With prior contents
`o/m/old` on disk and a checksum-valid archive, the install aborts on
the rename (`OSError`: destination non-empty) and the prior file is
still there, together with the stray staging folder `o/package`. -/
theorem claim_C9_counterexample :
    downloadPackage ["o"] [["o", "m"], ["o", "m", "old"]] "m" distC9 true
        = ⟨[.download "m", .extract "m"],
           [["o", "m"], ["o", "m", "old"], ["o", "package"], ["o", "package", "f.js"]],
           true⟩ ∧
      ["o", "m", "old"]
        ∈ (downloadPackage ["o"] [["o", "m"], ["o", "m", "old"]] "m" distC9 true).fs :=
  ⟨by decide, by decide⟩

set_option maxRecDepth 400000 in
/-- Witness for the amended C9 at a concrete input with prior contents
`o/w/old`. -/
theorem claim_C9_rename_not_replacing_witness :
    downloadPackage ["o"] [["o", "w"], ["o", "w", "old"]] "w" distC9 true
        = ⟨[.download "w", .extract "w"],
           extractAll [["o", "w"], ["o", "w", "old"]] ["o"] distC9.entries, true⟩ ∧
      ∀ p ∈ [["o", "w"], ["o", "w", "old"]],
        p ∈ (downloadPackage ["o"] [["o", "w"], ["o", "w", "old"]] "w" distC9 true).fs :=
  claim_C9_rename_not_replacing ["o"] [["o", "w"], ["o", "w", "old"]] "w" distC9
    (by decide) (by decide) (by decide) (by decide)

set_option maxRecDepth 400000 in
/-- Witness for C4: an archive whose declared checksum `badf00d` does
not match the SHA-1 of its data. -/
theorem claim_C4_checksum_mismatch_witness :
    downloadPackage ["o"] [] "x" ⟨[], "badf00d", []⟩ true
        = ⟨[.download "x",
            .hashFail "x" "da39a3ee5e6b4b0d3255bfef95601890afd80709" "badf00d"],
           [], false⟩ ∧
      runDownloads ["o"] [] [("x", ⟨[], "badf00d", []⟩)]
        = ⟨[.download "x",
            .hashFail "x" "da39a3ee5e6b4b0d3255bfef95601890afd80709" "badf00d"]
              ++ (runDownloads ["o"] [] ([] : List (String × DistInfo))).events,
           (runDownloads ["o"] [] ([] : List (String × DistInfo))).fs,
           (runDownloads ["o"] [] ([] : List (String × DistInfo))).aborted⟩ ∧
      (runDownloads ["o"] [] [("x", ⟨[], "badf00d", []⟩)]).events.all
          (fun e => !isLockEvent e) = true :=
  claim_C4_checksum_mismatch ["o"] [] "x" ⟨[], "badf00d", []⟩ [] (by decide)

/-- An empty registry (no packages, no dependencies). -/
def regEmpty : Registry := ⟨fun _ => [], fun _ _ => []⟩

def distsNone : String → Version → DistInfo := fun _ _ => ⟨[], "", []⟩

/-- Claim C6 counterexample: with an empty initial requirement list the
resolution succeeds (empty resolved set) yet NO lock record is written
— zero lock events, not "exactly once per successful resolution".  The
lock write is guarded by `if selected_versions:` and skipped for an
empty dict. -/
theorem claim_C6_counterexample :
    setup regEmpty distsNone [] 5 ["o"] [] = some ⟨[], [["o"]], .ok []⟩ ∧
      (List.filter isLockEvent ([] : List Event)).length = 0 :=
  ⟨rfl, rfl⟩

theorem filter_lock_nil : ∀ evs : List Event,
    evs.all (fun e => !isLockEvent e) = true → evs.filter isLockEvent = [] := by
  intro evs h
  induction evs with
  | nil => rfl
  | cons e rest ih =>
    rw [List.all_cons, Bool.and_eq_true] at h
    have h1 : isLockEvent e = false := by
      cases hc : isLockEvent e
      · rfl
      · rw [hc] at h
        exact absurd h.1 (by decide)
    rw [List.filter_cons_of_neg (by simp [h1])]
    exact ih h.2

theorem setup_res_error (reg : Registry) (dists : String → Version → DistInfo)
    (initial : List (String × String)) (fuel : Nat) (out : List String)
    (fs0 : List (List String)) (e : RErr)
    (hres : resolveDependencies reg initial fuel = some (.error e)) :
    setup reg dists initial fuel out fs0
      = some ⟨[], addPath fs0 out, .error (.res e)⟩ := by
  unfold setup
  rw [hres]

theorem setup_res_empty (reg : Registry) (dists : String → Version → DistInfo)
    (initial : List (String × String)) (fuel : Nat) (out : List String)
    (fs0 : List (List String)) (st : RState)
    (hres : resolveDependencies reg initial fuel = some (.ok st))
    (hr : st.resolved = []) :
    setup reg dists initial fuel out fs0 = some ⟨[], addPath fs0 out, .ok []⟩ := by
  unfold setup
  simp only [hres, hr]

theorem setup_res_cons (reg : Registry) (dists : String → Version → DistInfo)
    (initial : List (String × String)) (fuel : Nat) (out : List String)
    (fs0 : List (List String)) (st : RState) (r0 : String × Version)
    (rs : List (String × Version))
    (hres : resolveDependencies reg initial fuel = some (.ok st))
    (hr : st.resolved = r0 :: rs) :
    setup reg dists initial fuel out fs0
      = some ⟨Event.lock (r0 :: rs)
            :: (runDownloads out (addPath (addPath fs0 out) lockPath)
                  ((r0 :: rs).map (fun p => (p.1, dists p.1 p.2)))).events,
          (runDownloads out (addPath (addPath fs0 out) lockPath)
            ((r0 :: rs).map (fun p => (p.1, dists p.1 p.2)))).fs,
          if (runDownloads out (addPath (addPath fs0 out) lockPath)
                ((r0 :: rs).map (fun p => (p.1, dists p.1 p.2)))).aborted then
            .error .osError
          else .ok (r0 :: rs)⟩ := by
  unfold setup
  simp only [hres, hr]

/-- Claim C6 (amended): in every terminating run, when resolution fails
no lock is written and no download happens (the run's event trace is
empty); when resolution succeeds with a NON-EMPTY resolved set — and
only then — the lock record is written exactly once, as the very first
event, before any download (this holds whether the downloads all
complete or an `OSError` aborts them); when resolution succeeds with an
empty resolved set, the lock write and the downloads are skipped. -/
theorem claim_C6_lock_once (reg : Registry) (dists : String → Version → DistInfo)
    (initial : List (String × String)) (fuel : Nat) (out : List String)
    (fs0 : List (List String)) (o : SetupOut)
    (h : setup reg dists initial fuel out fs0 = some o) :
    (∀ e, o.result = .error (.res e) → o.events = []) ∧
      (o.result = .ok [] → o.events = []) ∧
      (∀ r0 rs, o.result = .ok (r0 :: rs) →
        (o.events.filter isLockEvent).length = 1 ∧
          o.events.takeWhile (fun e => !isLockEvent e) = []) ∧
      (o.result = .error .osError →
        (o.events.filter isLockEvent).length = 1 ∧
          o.events.takeWhile (fun e => !isLockEvent e) = []) := by
  cases hres : resolveDependencies reg initial fuel with
  | none =>
    rw [setup, hres] at h
    exact absurd h (by simp)
  | some r =>
    cases r with
    | error e =>
      rw [setup_res_error reg dists initial fuel out fs0 e hres] at h
      rw [Option.some.injEq] at h
      subst h
      exact ⟨fun e2 h2 => rfl, fun h2 => rfl,
        fun r0 rs h2 => absurd h2 (by simp),
        fun h2 => absurd h2 (by simp)⟩
    | ok st =>
      cases hr : st.resolved with
      | nil =>
        rw [setup_res_empty reg dists initial fuel out fs0 st hres hr] at h
        rw [Option.some.injEq] at h
        subst h
        exact ⟨fun e2 h2 => absurd h2 (by simp), fun h2 => rfl,
          fun r0 rs h2 => absurd h2 (by simp),
          fun h2 => absurd h2 (by simp)⟩
      | cons r0 rs =>
        rw [setup_res_cons reg dists initial fuel out fs0 st r0 rs hres hr] at h
        rw [Option.some.injEq] at h
        subst h
        have hlock : ((Event.lock (r0 :: rs)
            :: (runDownloads out (addPath (addPath fs0 out) lockPath)
                  ((r0 :: rs).map (fun p => (p.1, dists p.1 p.2)))).events).filter
              isLockEvent).length = 1 := by
          rw [List.filter_cons_of_pos (by rfl)]
          rw [filter_lock_nil _ (runDownloads_no_lock out _ _)]
          rfl
        have htake : ((Event.lock (r0 :: rs)
            :: (runDownloads out (addPath (addPath fs0 out) lockPath)
                  ((r0 :: rs).map (fun p => (p.1, dists p.1 p.2)))).events).takeWhile
              (fun e => !isLockEvent e)) = [] := rfl
        refine ⟨?_, ?_, fun r0h rsh h2 => ⟨hlock, htake⟩, fun h2 => ⟨hlock, htake⟩⟩
        · intro e2 h2
          exfalso
          cases hab : (runDownloads out (addPath (addPath fs0 out) lockPath)
              ((r0 :: rs).map (fun p => (p.1, dists p.1 p.2)))).aborted <;>
            rw [hab] at h2 <;> simp at h2
        · intro h2
          exfalso
          cases hab : (runDownloads out (addPath (addPath fs0 out) lockPath)
              ((r0 :: rs).map (fun p => (p.1, dists p.1 p.2)))).aborted <;>
            rw [hab] at h2 <;> simp at h2

/-- Claim C10: an empty initial requirement list resolves successfully
to the empty set, and both `install()` and `update()` then return with
no lock write and no downloads at all (no events; the filesystem only
gains the output directory from `mkdir_p`). -/
theorem claim_C10_empty_requirements (reg : Registry)
    (dists : String → Version → DistInfo) (fuel : Nat) (out : List String)
    (fs0 : List (List String)) :
    install reg dists [] fuel out fs0 = some ⟨[], addPath fs0 out, .ok []⟩ ∧
      update reg dists [] fuel out fs0 = some ⟨[], addPath fs0 out, .ok []⟩ := by
  have hres : resolveDependencies reg [] fuel = some (.ok (initState [])) := by
    unfold resolveDependencies
    exact resolveLoop_nil reg fuel (initState []) rfl
  constructor
  · show setup reg dists [] fuel out fs0 = some ⟨[], addPath fs0 out, .ok []⟩
    exact setup_res_empty reg dists [] fuel out fs0 (initState []) hres rfl
  · show setup reg dists [] fuel out fs0 = some ⟨[], addPath fs0 out, .ok []⟩
    exact setup_res_empty reg dists [] fuel out fs0 (initState []) hres rfl

/-- Distribution data used by the C6 witness run: every package ships a
`package/f.js` archive whose checksum matches its (empty) data. -/
def distsBFS : String → Version → DistInfo :=
  fun _ _ => ⟨[], sha1hex [], [["package"], ["package", "f.js"]]⟩

/-- The full output of `setup regBFS distsBFS initBFS 9 ["o"] []`. -/
def setupBFSOut : SetupOut :=
  ⟨[Event.lock [("B", relVer 1 0 0), ("A", relVer 1 0 0)],
    Event.download "B", Event.extract "B", Event.renamed "B",
    Event.download "A", Event.extract "A", Event.renamed "A"],
   [["o"], [".package-lock.json"], ["o", "B"], ["o", "B", "f.js"],
    ["o", "A"], ["o", "A", "f.js"]],
   .ok [("B", relVer 1 0 0), ("A", relVer 1 0 0)]⟩

set_option maxRecDepth 1000000 in
/-- Witness for the amended C6: a successful two-package run writes the
lock exactly once, as the first event, before every download. -/
theorem claim_C6_lock_once_witness :
    (setupBFSOut.events.filter isLockEvent).length = 1 ∧
      setupBFSOut.events.takeWhile (fun e => !isLockEvent e) = [] :=
  (claim_C6_lock_once regBFS distsBFS initBFS 9 ["o"] [] setupBFSOut rfl).2.2.1
    ("B", relVer 1 0 0) [("A", relVer 1 0 0)] rfl
